import Mathlib

/-!
Verification of the HashMap container (src/HashMap.cpp).

The C++ class stores a doubly-linked chain of (key, value) pairs
(`std::list data`), a directory of iterators into that chain
(`std::vector<iterator> pointers`, one slot per bucket), a tracked size
`sz`, and a hash function.  We embed the state shallowly:

* `data` is a `List (K × V)` (chain order = list order);
* an iterator into the chain is its position `0 ≤ p ≤ data.length`,
  with `p = data.length` playing the role of `data.end()`;
* `pointers` is a `List Nat` of such positions.

Because `std::list` iterators are stable, inserting at position `p`
shifts every held position `q ≥ p` to `q + 1` (the end iterator, at
position `length`, moves to `length + 1`, which is again the end), and
erasing at position `p` shifts every held position `q > p` to `q - 1`.
This is exactly how the embedded operations update `pointers`.

Floating-point side conditions in the source elaborate to exact integer
tests for every realizable size: `sz / max_ratio > capacity` with
`max_ratio = 0.5` is `2 * sz > capacity`, `sz / min_ratio < capacity`
with `min_ratio = 0.1` is `10 * sz < capacity` (for `sz < 2^49` the
double quotient `sz / 0.1` rounds to exactly `10 * sz`), and
`ceil(sz / max_ratio + 1)` is `2 * sz + 1`.

The hasher is a parameter `hasher : K → Nat`; the C++ template stores a
stateless functor, so every table built in one development shares it.
-/

namespace HashMapVerif

/-- The embedded state of `HashMap<K, V>`: tracked size, the chain,
and the directory of chain positions (`data.length` = end sentinel). -/
structure HashMap (K V : Type) where
  sz : Nat
  data : List (K × V)
  pointers : List Nat
deriving DecidableEq

variable {K V : Type} [DecidableEq K]

/-- Index of the first occurrence of `b`, or the length if absent. -/
def firstIdx (b : Nat) : List Nat → Nat
  | [] => 0
  | c :: l => if c = b then 0 else firstIdx b l + 1

/-- Equal values occur contiguously: any position between two
occurrences of a value holds that same value. -/
def Contig (l : List Nat) : Prop :=
  ∀ (i j k b : Nat), i ≤ j → j ≤ k → l[i]? = some b → l[k]? = some b → l[j]? = some b

section ListLemmas

variable {α : Type}

theorem find?_eq_head?_filter (p : α → Bool) (l : List α) :
    l.find? p = (l.filter p).head? := by
  induction l with
  | nil => rfl
  | cons a l ih =>
    by_cases h : p a
    · simp [List.find?_cons, List.filter_cons, h]
    · simp only [List.find?_cons, List.filter_cons, h]
      simpa [h] using ih

theorem getElem?_insertAt (l : List α) (x : α) (p i : Nat) (hp : p ≤ l.length) :
    (l.take p ++ x :: l.drop p)[i]? =
      if i < p then l[i]? else if i = p then some x else l[i - 1]? := by
  have hlen : (l.take p).length = p := by simp [List.length_take, Nat.min_eq_left hp]
  by_cases h1 : i < p
  · rw [List.getElem?_append_left (by omega), List.getElem?_take, if_pos h1, if_pos h1]
  · rw [List.getElem?_append_right (by omega), hlen, if_neg h1]
    by_cases h2 : i = p
    · simp [h2]
    · have hi : i - p = (i - p - 1) + 1 := by omega
      rw [hi]
      simp only [List.getElem?_cons_succ, List.getElem?_drop]
      rw [if_neg h2]
      congr 1
      omega

theorem getElem?_eraseIdx' (l : List α) (p i : Nat) (hp : p < l.length) :
    (l.eraseIdx p)[i]? = if i < p then l[i]? else l[i + 1]? := by
  rw [List.eraseIdx_eq_take_drop_succ]
  have hlen : (l.take p).length = p := by simp [List.length_take]; omega
  by_cases h1 : i < p
  · rw [List.getElem?_append_left (by omega), List.getElem?_take, if_pos h1, if_pos h1]
  · rw [List.getElem?_append_right (by omega), hlen, List.getElem?_drop, if_neg h1]
    congr 1
    omega

theorem length_insertAt (l : List α) (x : α) (p : Nat) (hp : p ≤ l.length) :
    (l.take p ++ x :: l.drop p).length = l.length + 1 := by
  simp [List.length_take, List.length_drop]
  omega

theorem mem_of_getElem? {l : List α} {i : Nat} {x : α} (h : l[i]? = some x) : x ∈ l :=
  List.getElem?_mem h

theorem getElem?_of_mem {l : List α} {x : α} (h : x ∈ l) : ∃ i : Nat, l[i]? = some x := by
  obtain ⟨i, hi1, hi2⟩ := List.mem_iff_getElem.mp h
  exact ⟨i, by rw [List.getElem?_eq_getElem hi1, hi2]⟩

end ListLemmas

section FirstIdx

theorem firstIdx_le_length (b : Nat) (l : List Nat) : firstIdx b l ≤ l.length := by
  induction l with
  | nil => simp [firstIdx]
  | cons c l ih =>
    by_cases h : c = b <;> simp [firstIdx, h] <;> omega

theorem getElem?_lt_firstIdx {b : Nat} {l : List Nat} {i : Nat} (h : i < firstIdx b l) :
    l[i]? ≠ some b := by
  induction l generalizing i with
  | nil => simp [firstIdx] at h
  | cons c l ih =>
    by_cases hc : c = b
    · simp [firstIdx, hc] at h
    · cases i with
      | zero => simpa using hc
      | succ i =>
        simp only [firstIdx, if_neg hc] at h
        simpa using ih (by omega)

theorem getElem?_firstIdx {b : Nat} {l : List Nat} (h : firstIdx b l < l.length) :
    l[firstIdx b l]? = some b := by
  induction l with
  | nil => simp at h
  | cons c l ih =>
    by_cases hc : c = b
    · simp [firstIdx, hc]
    · simp only [firstIdx, if_neg hc, List.length_cons] at h ⊢
      simpa using ih (by omega)

theorem firstIdx_char {b : Nat} {l : List Nat} {n : Nat} (hn : n ≤ l.length)
    (hlt : ∀ i, i < n → l[i]? ≠ some b)
    (hat : l[n]? = some b ∨ n = l.length) : firstIdx b l = n := by
  rcases Nat.lt_trichotomy (firstIdx b l) n with h | h | h
  · have := getElem?_firstIdx (l := l) (b := b) (by omega)
    exact absurd this (hlt _ h)
  · exact h
  · exfalso
    rcases hat with hat | hat
    · exact getElem?_lt_firstIdx h hat
    · have := firstIdx_le_length b l
      omega

theorem firstIdx_eq_length {b : Nat} {l : List Nat}
    (h : ∀ i : Nat, l[i]? ≠ some b) : firstIdx b l = l.length := by
  apply firstIdx_char (Nat.le_refl _) (fun i _ => h i)
  exact Or.inr rfl

end FirstIdx

section ContigInsert

theorem contig_insertAt {l : List Nat} {b : Nat} (hC : Contig l) :
    Contig (l.take (firstIdx b l) ++ b :: l.drop (firstIdx b l)) := by
  set p := firstIdx b l with hp
  have hple : p ≤ l.length := firstIdx_le_length b l
  intro i j k c hij hjk h1 h2
  rw [getElem?_insertAt _ _ _ _ hple] at h1 h2 ⊢
  by_cases hk1 : k < p
  · rw [if_pos (by omega)] at h1 h2 ⊢
    exact hC i j k c hij hjk h1 h2
  · by_cases hk2 : k = p
    · rw [if_neg (by omega), if_pos hk2] at h2
      by_cases hj2 : j = p
      · rwa [if_neg (by omega), if_pos hj2]
      · have hjp : j < p := by omega
        rw [if_pos (by omega)] at h1
        rw [if_pos hjp]
        exact absurd h1 (Option.some_inj.mp h2 ▸ getElem?_lt_firstIdx (by omega))
    · have hk3 : p < k := by omega
      rw [if_neg (by omega), if_neg (by omega)] at h2
      have hklen : k - 1 < l.length := by
        by_contra hcon
        rw [List.getElem?_eq_none (by omega)] at h2
        cases h2
      have hplen : p < l.length := by omega
      have hpb : l[p]? = some b := getElem?_firstIdx (by omega)
      by_cases hj1 : j < p
      · rw [if_pos (by omega)] at h1
        rw [if_pos hj1]
        exact hC i j (k - 1) c (by omega) (by omega) h1 h2
      · by_cases hj2 : j = p
        · rw [if_neg (by omega), if_pos hj2]
          by_cases hi2 : i = p
          · rw [if_neg (by omega), if_pos hi2] at h1
            exact h1
          · rw [if_pos (by omega)] at h1
            have := hC i p (k - 1) c (by omega) (by omega) h1 h2
            rw [this] at hpb
            exact hpb.symm
        · have hjp : p < j := by omega
          rw [if_neg (by omega), if_neg (by omega)]
          by_cases hi1 : i < p
          · rw [if_pos hi1] at h1
            exact hC i (j - 1) (k - 1) c (by omega) (by omega) h1 h2
          · by_cases hi2 : i = p
            · rw [if_neg (by omega), if_pos hi2] at h1
              rw [← Option.some_inj.mp h1]
              exact hC p (j - 1) (k - 1) b (by omega) (by omega) hpb
                (Option.some_inj.mp h1 ▸ h2)
            · rw [if_neg (by omega), if_neg (by omega)] at h1
              exact hC (i - 1) (j - 1) (k - 1) c (by omega) (by omega) h1 h2

theorem firstIdx_insertAt_self {l : List Nat} {b : Nat} :
    firstIdx b (l.take (firstIdx b l) ++ b :: l.drop (firstIdx b l)) = firstIdx b l := by
  set p := firstIdx b l with hp
  have hple : p ≤ l.length := firstIdx_le_length b l
  apply firstIdx_char
  · rw [length_insertAt _ _ _ hple]
    omega
  · intro i hi
    rw [getElem?_insertAt _ _ _ _ hple, if_pos hi]
    exact getElem?_lt_firstIdx hi
  · left
    rw [getElem?_insertAt _ _ _ _ hple, if_neg (by omega), if_pos rfl]

theorem firstIdx_insertAt_other {l : List Nat} {b c : Nat} (hne : c ≠ b) :
    firstIdx c (l.take (firstIdx b l) ++ b :: l.drop (firstIdx b l)) =
      (if firstIdx b l ≤ firstIdx c l then firstIdx c l + 1 else firstIdx c l) := by
  set p := firstIdx b l with hp
  set q := firstIdx c l with hq
  have hple : p ≤ l.length := firstIdx_le_length b l
  have hqle : q ≤ l.length := firstIdx_le_length c l
  by_cases hpq : p ≤ q
  · rw [if_pos hpq]
    apply firstIdx_char
    · rw [length_insertAt _ _ _ hple]
      omega
    · intro i hi
      rw [getElem?_insertAt _ _ _ _ hple]
      by_cases h1 : i < p
      · rw [if_pos h1]
        exact getElem?_lt_firstIdx (by omega)
      · by_cases h2 : i = p
        · rw [if_neg h1, if_pos h2]
          intro hcon
          exact hne (Option.some_inj.mp hcon).symm
        · rw [if_neg h1, if_neg h2]
          exact getElem?_lt_firstIdx (by omega)
    · by_cases hql : q < l.length
      · left
        rw [getElem?_insertAt _ _ _ _ hple, if_neg (by omega), if_neg (by omega)]
        have hq1 : q + 1 - 1 = q := by omega
        rw [hq1]
        exact getElem?_firstIdx hql
      · right
        rw [length_insertAt _ _ _ hple]
        omega
  · rw [if_neg hpq]
    apply firstIdx_char
    · rw [length_insertAt _ _ _ hple]
      omega
    · intro i hi
      rw [getElem?_insertAt _ _ _ _ hple, if_pos (by omega)]
      exact getElem?_lt_firstIdx (by omega)
    · left
      rw [getElem?_insertAt _ _ _ _ hple, if_pos (by omega)]
      exact getElem?_firstIdx (by omega)

end ContigInsert

section ContigErase

theorem length_eraseIdx' {α : Type} (l : List α) (p : Nat) (hp : p < l.length) :
    (l.eraseIdx p).length = l.length - 1 := by
  rw [List.length_eraseIdx, if_pos hp]

theorem map_eraseIdx' {α β : Type} (f : α → β) (l : List α) (p : Nat) :
    (l.eraseIdx p).map f = (l.map f).eraseIdx p := by
  rw [List.eraseIdx_eq_take_drop_succ, List.eraseIdx_eq_take_drop_succ, List.map_append,
    List.map_take, List.map_drop]

theorem contig_eraseIdx {l : List Nat} {p : Nat} (hC : Contig l) (hp : p < l.length) :
    Contig (l.eraseIdx p) := by
  intro i j k b hij hjk h1 h2
  rw [getElem?_eraseIdx' _ _ _ hp] at h1 h2 ⊢
  by_cases hi : i < p
  · rw [if_pos hi] at h1
    by_cases hj : j < p
    · rw [if_pos hj]
      by_cases hk : k < p
      · rw [if_pos hk] at h2
        exact hC i j k b hij hjk h1 h2
      · rw [if_neg hk] at h2
        exact hC i j (k + 1) b hij (by omega) h1 h2
    · rw [if_neg hj]
      rw [if_neg (by omega)] at h2
      exact hC i (j + 1) (k + 1) b (by omega) (by omega) h1 h2
  · rw [if_neg hi] at h1
    rw [if_neg (by omega)] at h2
    rw [if_neg (by omega)]
    exact hC (i + 1) (j + 1) (k + 1) b (by omega) (by omega) h1 h2

theorem firstIdx_eraseIdx_other {B : List Nat} {p h c : Nat} (hplen : p < B.length)
    (hBp : B[p]? = some h) (hne : c ≠ h) :
    firstIdx c (B.eraseIdx p) =
      if p < firstIdx c B then firstIdx c B - 1 else firstIdx c B := by
  set q := firstIdx c B with hq
  have hqle : q ≤ B.length := firstIdx_le_length c B
  have hqnep : q ≠ p := by
    intro hcon
    have : B[q]? = some c := getElem?_firstIdx (by omega)
    rw [hcon, hBp] at this
    exact hne (Option.some_inj.mp this).symm
  by_cases hpq : p < q
  · rw [if_pos hpq]
    apply firstIdx_char
    · rw [length_eraseIdx' _ _ hplen]
      omega
    · intro i hi
      rw [getElem?_eraseIdx' _ _ _ hplen]
      by_cases h1 : i < p
      · rw [if_pos h1]
        exact getElem?_lt_firstIdx (by omega)
      · rw [if_neg h1]
        exact getElem?_lt_firstIdx (by omega)
    · by_cases hql : q < B.length
      · left
        rw [getElem?_eraseIdx' _ _ _ hplen, if_neg (by omega)]
        have hq1 : q - 1 + 1 = q := by omega
        rw [hq1]
        exact getElem?_firstIdx (by omega)
      · right
        rw [length_eraseIdx' _ _ hplen]
        omega
  · rw [if_neg hpq]
    have hqp : q < p := by omega
    apply firstIdx_char
    · rw [length_eraseIdx' _ _ hplen]
      omega
    · intro i hi
      rw [getElem?_eraseIdx' _ _ _ hplen, if_pos (by omega)]
      exact getElem?_lt_firstIdx (by omega)
    · left
      rw [getElem?_eraseIdx' _ _ _ hplen, if_pos (by omega)]
      exact getElem?_firstIdx (by omega)

theorem firstIdx_eraseIdx_mid {B : List Nat} {p h : Nat} (hplen : p < B.length)
    (hflt : firstIdx h B < p) :
    firstIdx h (B.eraseIdx p) = firstIdx h B := by
  set f := firstIdx h B with hf
  apply firstIdx_char
  · rw [length_eraseIdx' _ _ hplen]
    have := firstIdx_le_length h B
    omega
  · intro i hi
    rw [getElem?_eraseIdx' _ _ _ hplen, if_pos (by omega)]
    exact getElem?_lt_firstIdx (by omega)
  · left
    rw [getElem?_eraseIdx' _ _ _ hplen, if_pos (by omega)]
    exact getElem?_firstIdx (by omega)

theorem firstIdx_eraseIdx_head_next {B : List Nat} {p h : Nat} (hplen : p < B.length)
    (hfp : firstIdx h B = p) (hnext : B[p + 1]? = some h) :
    firstIdx h (B.eraseIdx p) = p := by
  have hp1 : p + 1 < B.length := by
    by_contra hcon
    rw [List.getElem?_eq_none (by omega)] at hnext
    cases hnext
  apply firstIdx_char
  · rw [length_eraseIdx' _ _ hplen]
    omega
  · intro i hi
    rw [getElem?_eraseIdx' _ _ _ hplen, if_pos (by omega)]
    exact getElem?_lt_firstIdx (by omega)
  · left
    rw [getElem?_eraseIdx' _ _ _ hplen, if_neg (by omega)]
    exact hnext

theorem firstIdx_eraseIdx_head_end {B : List Nat} {p h : Nat} (hC : Contig B)
    (hplen : p < B.length) (hBp : B[p]? = some h) (hfp : firstIdx h B = p)
    (hnext : B[p + 1]? ≠ some h) :
    firstIdx h (B.eraseIdx p) = B.length - 1 := by
  rw [← length_eraseIdx' _ _ hplen]
  apply firstIdx_eq_length
  intro i
  rw [getElem?_eraseIdx' _ _ _ hplen]
  by_cases h1 : i < p
  · rw [if_pos h1]
    exact getElem?_lt_firstIdx (by omega)
  · rw [if_neg h1]
    intro hcon
    exact hnext (hC p (p + 1) (i + 1) h (by omega) (by omega) hBp hcon)

end ContigErase

section Ops

variable (hasher : K → Nat)

/-- `hasher(e.first) % capacity`: the bucket of an entry. -/
def bkt (cap : Nat) (e : K × V) : Nat := hasher e.1 % cap

/-- The chain's bucket numbers, in chain order. -/
def bkts (m : HashMap K V) : List Nat := m.data.map (bkt hasher m.pointers.length)

/-- The common core of `reallocate`'s loop body and `__insert`:
`data.insert(pointers[hash], elem); pointers[hash]--;` — splice the
entry in front of its bucket's run and repoint the directory slot. -/
def bucketPush (m : HashMap K V) (e : K × V) : HashMap K V :=
  let cap := m.pointers.length
  let h := hasher e.1 % cap
  let p := m.pointers.getD h m.data.length
  { sz := m.sz
    data := m.data.take p ++ e :: m.data.drop p
    pointers := (m.pointers.map fun q => if p ≤ q then q + 1 else q).set h p }

/-- `HashMap::reallocate(new_size)`: clear the chain, reset the
directory to `new_size` end sentinels, and re-push every old entry in
chain order. -/
def hmRealloc (m : HashMap K V) (newSize : Nat) : HashMap K V :=
  m.data.foldl (fun acc e => bucketPush hasher acc e)
    { sz := m.sz, data := [], pointers := List.replicate newSize 0 }

/-- The scan loop of `HashMap::find`: walk the chain from position `p`
while the entry's bucket is still `h`, returning the position of the
first entry whose key equals `k`. -/
def scanPos (cap h : Nat) (k : K) : List (K × V) → Nat → Option Nat
  | [], _ => none
  | e :: es, p =>
    if hasher e.1 % cap = h then
      if e.1 = k then some p else scanPos cap h k es (p + 1)
    else none

/-- `HashMap::find(key)` as a chain position (`data.length` = end). -/
def hmFind (m : HashMap K V) (k : K) : Nat :=
  let cap := m.pointers.length
  let h := hasher k % cap
  let start := m.pointers.getD h m.data.length
  match scanPos hasher cap h k (m.data.drop start) start with
  | some p => p
  | none => m.data.length

/-- The entry `find(key)` points at (`none` when `find` returns end). -/
def hmFindEntry (m : HashMap K V) (k : K) : Option (K × V) :=
  m.data[hmFind hasher m k]?

/-- `find(key)->second`, or `none` when `find` returns end. -/
def hmFindValue (m : HashMap K V) (k : K) : Option V :=
  (hmFindEntry hasher m k).map fun e => e.2

/-- `HashMap::__insert(elem)`: bump `sz`, splice the entry at the head
of its bucket's run, then grow (double and rehash) if
`sz / max_ratio > capacity`, i.e. `2 * sz > capacity`. -/
def hmInsertRaw (m : HashMap K V) (e : K × V) : HashMap K V :=
  let m1 := bucketPush hasher { m with sz := m.sz + 1 } e
  if m1.pointers.length < 2 * m1.sz then hmRealloc hasher m1 (m1.pointers.length * 2)
  else m1

/-- `HashMap::insert(elem)`: no-op unless `find` returns end. -/
def hmInsert (m : HashMap K V) (e : K × V) : HashMap K V :=
  if hmFind hasher m e.1 = m.data.length then hmInsertRaw hasher m e else m

/-- The body of `HashMap::erase` on a hit at chain position `p`, up to
but not including the shrink check: decrement `sz`; if the directory
slot of the key's bucket points at `p`, advance it to the successor
(resetting it to end when the successor leaves the bucket); remove the
entry (shifting the positions all iterators hold). -/
def hmEraseCore (m : HashMap K V) (k : K) (p : Nat) : HashMap K V :=
  { sz := m.sz - 1
    data := m.data.eraseIdx p
    pointers :=
      (if m.pointers.getD (hasher k % m.pointers.length) m.data.length = p then
          m.pointers.set (hasher k % m.pointers.length)
            (match m.data[p + 1]? with
             | some e =>
               if hasher e.1 % m.pointers.length = hasher k % m.pointers.length then p + 1
               else m.data.length
             | none => m.data.length)
        else m.pointers).map fun q => if p < q then q - 1 else q }

/-- `HashMap::erase(key)`: no-op on a miss; otherwise run the erase
body, then shrink (halve and rehash) if `sz / min_ratio < capacity`,
i.e. `10 * sz < capacity`. -/
def hmErase (m : HashMap K V) (k : K) : HashMap K V :=
  let p := hmFind hasher m k
  if p = m.data.length then m
  else
    let m1 := hmEraseCore hasher m k p
    if 10 * m1.sz < m1.pointers.length then hmRealloc hasher m1 (m1.pointers.length / 2)
    else m1

/-- The default constructor: empty chain, 16 end sentinels. -/
def hmDefault : HashMap K V := ⟨0, [], List.replicate 16 0⟩

/-- The range constructor `HashMap(begin, end, hasher)`: copy the pairs
verbatim, then `reallocate(ceil(sz / max_ratio + 1))`, i.e. at capacity
`2 * length + 1`. -/
def hmFromList (l : List (K × V)) : HashMap K V :=
  hmRealloc hasher ⟨l.length, l, []⟩ (2 * l.length + 1)

/-- The copy constructor: delegates to the range constructor on the
source's chain. -/
def hmCopy (src : HashMap K V) : HashMap K V := hmFromList hasher src.data

/-- `operator=`: copy `sz`, the chain, and the hasher, then
`reallocate` at the source's current capacity. -/
def hmAssign (src : HashMap K V) : HashMap K V :=
  hmRealloc hasher ⟨src.sz, src.data, src.pointers⟩ src.pointers.length

/-- `HashMap::clear()`: size 0, empty chain, 16 end sentinels. -/
def hmClear (_m : HashMap K V) : HashMap K V := ⟨0, [], List.replicate 16 0⟩

/-- The state after `operator[](key)`: insert `(key, V())` on a miss
(`d` stands for the default-constructed value), otherwise unchanged. -/
def hmIdxState (m : HashMap K V) (k : K) (d : V) : HashMap K V :=
  if hmFind hasher m k = m.data.length then hmInsertRaw hasher m (k, d) else m

/-- `HashMap::at(key)` (const): `find`, then throw `out_of_range` on a
miss, else return the value. -/
def hmAt (m : HashMap K V) (k : K) : Except Unit V :=
  match m.data[hmFind hasher m k]? with
  | some e => Except.ok e.2
  | none => Except.error ()

/-- `at` is a const member function: the operation's state/result pair. -/
def hmAtOp (m : HashMap K V) (k : K) : HashMap K V × Except Unit V :=
  (m, hmAt hasher m k)

/-- Operational membership: `find(key)` did not return end. -/
def HMem (m : HashMap K V) (k : K) : Prop :=
  hmFind hasher m k < m.data.length

instance (m : HashMap K V) (k : K) : Decidable (HMem hasher m k) := by
  unfold HMem; infer_instance

/-- States reachable through the public interface. -/
inductive Reachable : HashMap K V → Prop
  | base : Reachable hmDefault
  | ofList (l : List (K × V)) : Reachable (hmFromList hasher l)
  | ins (m : HashMap K V) (e : K × V) : Reachable m → Reachable (hmInsert hasher m e)
  | del (m : HashMap K V) (k : K) : Reachable m → Reachable (hmErase hasher m k)
  | clr (m : HashMap K V) : Reachable m → Reachable (hmClear m)
  | idx (m : HashMap K V) (k : K) (d : V) : Reachable m → Reachable (hmIdxState hasher m k d)
  | assign (src : HashMap K V) : Reachable src → Reachable (hmAssign hasher src)
  | copy (src : HashMap K V) : Reachable src → Reachable (hmCopy hasher src)

/-- Directory correctness: each live slot holds the position of the
first chain entry of its bucket (the length, i.e. end, when none). -/
def DirOk (m : HashMap K V) : Prop :=
  ∀ h, h < m.pointers.length →
    m.pointers[h]? = some (firstIdx h (bkts hasher m))

/-- The structural invariant: bucket runs are contiguous and the
directory points at their heads. -/
def StructInv (m : HashMap K V) : Prop :=
  Contig (bkts hasher m) ∧ DirOk hasher m

/-- The full reachable-state invariant: structure, tracked size, and
the capacity band `2 * sz ≤ capacity ≤ max 16 (10 * sz)`. -/
def Inv (m : HashMap K V) : Prop :=
  StructInv hasher m ∧ m.sz = m.data.length ∧ 1 ≤ m.pointers.length ∧
    2 * m.sz ≤ m.pointers.length ∧ m.pointers.length ≤ max 16 (10 * m.sz)

/-! ### The scan loop -/

theorem scanPos_some {cap h : Nat} {k : K} :
    ∀ {B : List (K × V)} {p q : Nat}, scanPos hasher cap h k B p = some q →
      p ≤ q ∧ q - p < B.length := by
  intro B
  induction B with
  | nil => intro p q hq; simp [scanPos] at hq
  | cons e es ih =>
    intro p q hq
    simp only [scanPos] at hq
    by_cases h1 : hasher e.1 % cap = h
    · rw [if_pos h1] at hq
      by_cases h2 : e.1 = k
      · rw [if_pos h2, Option.some_inj] at hq
        subst hq
        simp
      · rw [if_neg h2] at hq
        have := ih hq
        simp only [List.length_cons]
        omega
    · rw [if_neg h1] at hq
      cases hq

theorem scanPos_bind {cap h : Nat} {k : K} :
    ∀ (B : List (K × V)) (p : Nat),
      (∀ x ∈ B.dropWhile (fun e => decide (hasher e.1 % cap = h)), ¬ x.1 = k) →
      (scanPos hasher cap h k B p).bind (fun q => B[q - p]?) =
        B.find? (fun e => decide (e.1 = k)) := by
  intro B
  induction B with
  | nil => intro p _; rfl
  | cons e es ih =>
    intro p hC
    by_cases h1 : hasher e.1 % cap = h
    · by_cases h2 : e.1 = k
      · rw [List.find?_cons_of_pos _ (by simpa using h2)]
        have h3 : hasher k % cap = h := by rw [← h2]; exact h1
        simp [scanPos, h1, h2, h3, Nat.sub_self]
      · have hC' : ∀ x ∈ es.dropWhile (fun e => decide (hasher e.1 % cap = h)), ¬ x.1 = k := by
          intro x hx
          apply hC
          rwa [List.dropWhile_cons_of_pos (by simpa using h1)]
        have hih := ih (p + 1) hC'
        simp only [scanPos, if_pos h1, if_neg h2]
        rw [List.find?_cons_of_neg _ (by simpa using h2), ← hih]
        cases hs : scanPos hasher cap h k es (p + 1) with
        | none => rfl
        | some q =>
          have hq := (scanPos_some hasher hs).1
          simp only [Option.some_bind]
          have hqp : q - p = (q - (p + 1)) + 1 := by omega
          rw [hqp, List.getElem?_cons_succ]
    · have hall : ∀ x ∈ e :: es, ¬ x.1 = k := by
        intro x hx
        apply hC
        rwa [List.dropWhile_cons_of_neg (by simpa using h1)]
      simp only [scanPos, if_neg h1, Option.none_bind]
      symm
      rw [List.find?_eq_none]
      intro x hx
      simpa using hall x hx

theorem dropWhile_bucket_ne {cap h : Nat} :
    ∀ (L : List (K × V)),
      (∀ (i j : Nat) (x y : K × V), i ≤ j → L[i]? = some x → L[j]? = some y →
        hasher y.1 % cap = h → hasher x.1 % cap = h) →
      ∀ x ∈ L.dropWhile (fun e => decide (hasher e.1 % cap = h)), ¬ hasher x.1 % cap = h := by
  intro L
  induction L with
  | nil => intro _ x hx; simp at hx
  | cons e es ih =>
    intro hFR x hx
    by_cases h1 : hasher e.1 % cap = h
    · rw [List.dropWhile_cons_of_pos (by simpa using h1)] at hx
      refine ih ?_ x hx
      intro i j a b hij ha hb hbh
      exact hFR (i + 1) (j + 1) a b (by omega) (by simpa using ha) (by simpa using hb) hbh
    · rw [List.dropWhile_cons_of_neg (by simpa using h1)] at hx
      rcases List.mem_cons.mp hx with hx | hx
      · subst hx; exact h1
      · intro hcon
        obtain ⟨j, hj⟩ := getElem?_of_mem hx
        exact h1 (hFR 0 (j + 1) e x (by omega) (by simp) (by simpa using hj) hcon)

/-! ### `find` is first-match association lookup -/

theorem hmFind_eq (m : HashMap K V) (k : K) :
    hmFind hasher m k =
      match scanPos hasher m.pointers.length (hasher k % m.pointers.length) k
          (m.data.drop (m.pointers.getD (hasher k % m.pointers.length) m.data.length))
          (m.pointers.getD (hasher k % m.pointers.length) m.data.length) with
      | some p => p
      | none => m.data.length := rfl

theorem hmFind_le (m : HashMap K V) (k : K) : hmFind hasher m k ≤ m.data.length := by
  rw [hmFind_eq]
  cases hs : scanPos hasher m.pointers.length (hasher k % m.pointers.length) k
      (m.data.drop (m.pointers.getD (hasher k % m.pointers.length) m.data.length))
      (m.pointers.getD (hasher k % m.pointers.length) m.data.length) with
  | none => simp
  | some q =>
    have h1 := scanPos_some hasher hs
    simp only [List.length_drop] at h1
    show q ≤ m.data.length
    omega

theorem find_spec (m : HashMap K V) (k : K)
    (hS : StructInv hasher m) (hcap : 1 ≤ m.pointers.length) :
    m.data[hmFind hasher m k]? = m.data.find? (fun e => decide (e.1 = k)) := by
  set cap := m.pointers.length with hcapdef
  set h := hasher k % cap with hdef
  have hh : h < cap := Nat.mod_lt _ hcap
  have hdir := hS.2 h hh
  have hlenb : (bkts hasher m).length = m.data.length := by
    simp [bkts]
  set p0 := firstIdx h (bkts hasher m) with hp0
  have hstart : m.pointers.getD h m.data.length = p0 := by
    rw [List.getD_eq_getElem?_getD, hdir]
    rfl
  have hp0len : p0 ≤ m.data.length := hlenb ▸ firstIdx_le_length h (bkts hasher m)
  have hTake : ∀ x ∈ m.data.take p0, ¬ x.1 = k := by
    intro x hx hxk
    obtain ⟨i, hi⟩ := getElem?_of_mem hx
    rw [List.getElem?_take] at hi
    by_cases hip : i < p0
    · rw [if_pos hip] at hi
      have hbi : (bkts hasher m)[i]? = some h := by
        rw [bkts, List.getElem?_map, hi]
        simp [bkt, hxk, hdef]
      exact getElem?_lt_firstIdx hip hbi
    · rw [if_neg hip] at hi
      cases hi
  have hFR : ∀ (i j : Nat) (x y : K × V), i ≤ j →
      (m.data.drop p0)[i]? = some x → (m.data.drop p0)[j]? = some y →
      hasher y.1 % cap = h → hasher x.1 % cap = h := by
    intro i j x y hij hx hy hyh
    rw [List.getElem?_drop] at hx hy
    have hjlen : p0 + j < m.data.length := by
      by_contra hcon
      rw [List.getElem?_eq_none (by omega)] at hy
      cases hy
    have hb0 : (bkts hasher m)[p0]? = some h := getElem?_firstIdx (by omega)
    have hbj : (bkts hasher m)[p0 + j]? = some h := by
      rw [bkts, List.getElem?_map, hy]
      simpa [bkt] using hyh
    have hbi := hS.1 p0 (p0 + i) (p0 + j) h (by omega) (by omega) hb0 hbj
    rw [bkts, List.getElem?_map, hx] at hbi
    simpa [bkt] using hbi
  have hDW : ∀ x ∈ (m.data.drop p0).dropWhile (fun e => decide (hasher e.1 % cap = h)),
      ¬ x.1 = k := by
    intro x hx hxk
    exact dropWhile_bucket_ne hasher (m.data.drop p0) hFR x hx (by simp [hxk, hdef])
  have hbind := scanPos_bind hasher (m.data.drop p0) p0 hDW
  have hsplit : m.data.find? (fun e => decide (e.1 = k)) =
      (m.data.drop p0).find? (fun e => decide (e.1 = k)) := by
    conv_lhs => rw [← List.take_append_drop p0 m.data]
    rw [List.find?_append]
    have : (m.data.take p0).find? (fun e => decide (e.1 = k)) = none := by
      rw [List.find?_eq_none]
      intro x hx
      simpa using hTake x hx
    rw [this, Option.none_or]
  rw [hmFind_eq, ← hcapdef, ← hdef, hstart]
  cases hs : scanPos hasher cap h k (m.data.drop p0) p0 with
  | none =>
    rw [hs, Option.none_bind] at hbind
    show m.data[m.data.length]? = _
    rw [List.getElem?_eq_none (Nat.le_refl _), hsplit, ← hbind]
  | some q =>
    rw [hs, Option.some_bind] at hbind
    have hq := scanPos_some hasher hs
    show m.data[q]? = _
    rw [hsplit, ← hbind, List.getElem?_drop]
    congr 1
    omega

/-- Under the structural invariant, membership through `find` agrees
with the existence of an entry with the given key. -/
theorem hmem_iff (m : HashMap K V) (k : K)
    (hS : StructInv hasher m) (hcap : 1 ≤ m.pointers.length) :
    HMem hasher m k ↔ ∃ e ∈ m.data, e.1 = k := by
  have hfs := find_spec hasher m k hS hcap
  constructor
  · intro hm
    have : m.data[hmFind hasher m k]?.isSome := by
      rw [List.getElem?_eq_getElem hm]
      rfl
    rw [hfs] at this
    obtain ⟨e, he⟩ := Option.isSome_iff_exists.mp this
    exact ⟨e, List.mem_of_find?_eq_some he, by simpa using List.find?_some he⟩
  · intro ⟨e, he, hek⟩
    have : m.data.find? (fun e => decide (e.1 = k)) ≠ none := by
      intro hnone
      rw [List.find?_eq_none] at hnone
      exact hnone e he (by simpa using hek)
    rw [← hfs] at this
    have hlt : hmFind hasher m k < m.data.length := by
      by_contra hcon
      rw [List.getElem?_eq_none (by omega)] at this
      exact this rfl
    exact hlt

/-! ### Preservation of the structural invariant by `bucketPush` -/

theorem length_bkts (m : HashMap K V) : (bkts hasher m).length = m.data.length := by
  simp [bkts]

theorem bucketPush_point (m : HashMap K V) (e : K × V)
    (hD : DirOk hasher m) (hcap : 1 ≤ m.pointers.length) :
    m.pointers.getD (hasher e.1 % m.pointers.length) m.data.length =
      firstIdx (hasher e.1 % m.pointers.length) (bkts hasher m) := by
  have hh : hasher e.1 % m.pointers.length < m.pointers.length := Nat.mod_lt _ hcap
  rw [List.getD_eq_getElem?_getD, hD _ hh]
  rfl

theorem bucketPush_eq (m : HashMap K V) (e : K × V)
    (hD : DirOk hasher m) (hcap : 1 ≤ m.pointers.length) :
    bucketPush hasher m e =
      { sz := m.sz
        data := m.data.take (firstIdx (hasher e.1 % m.pointers.length) (bkts hasher m)) ++
          e :: m.data.drop (firstIdx (hasher e.1 % m.pointers.length) (bkts hasher m))
        pointers := (m.pointers.map fun q =>
            if firstIdx (hasher e.1 % m.pointers.length) (bkts hasher m) ≤ q then q + 1
            else q).set (hasher e.1 % m.pointers.length)
          (firstIdx (hasher e.1 % m.pointers.length) (bkts hasher m)) } := by
  simp only [bucketPush]
  rw [bucketPush_point hasher m e hD hcap]

theorem bucketPush_sz (m : HashMap K V) (e : K × V) :
    (bucketPush hasher m e).sz = m.sz := rfl

theorem bucketPush_cap (m : HashMap K V) (e : K × V) :
    (bucketPush hasher m e).pointers.length = m.pointers.length := by
  simp [bucketPush]

theorem bucketPush_length (m : HashMap K V) (e : K × V)
    (hD : DirOk hasher m) (hcap : 1 ≤ m.pointers.length) :
    (bucketPush hasher m e).data.length = m.data.length + 1 := by
  rw [bucketPush_eq hasher m e hD hcap]
  exact length_insertAt _ _ _ (length_bkts hasher m ▸ firstIdx_le_length _ _)

theorem bkts_bucketPush (m : HashMap K V) (e : K × V)
    (hD : DirOk hasher m) (hcap : 1 ≤ m.pointers.length) :
    bkts hasher (bucketPush hasher m e) =
      (bkts hasher m).take (firstIdx (hasher e.1 % m.pointers.length) (bkts hasher m)) ++
        (hasher e.1 % m.pointers.length) ::
        (bkts hasher m).drop (firstIdx (hasher e.1 % m.pointers.length) (bkts hasher m)) := by
  have hcapeq := bucketPush_cap hasher m e
  rw [bkts, hcapeq, bucketPush_eq hasher m e hD hcap]
  simp only [List.map_append, List.map_cons, List.map_take, List.map_drop]
  rfl

theorem take_firstIdx_bkt_ne (m : HashMap K V) (hb : Nat) :
    ∀ x ∈ m.data.take (firstIdx hb (bkts hasher m)), ¬ hasher x.1 % m.pointers.length = hb := by
  intro x hx hcon
  obtain ⟨i, hi⟩ := getElem?_of_mem hx
  rw [List.getElem?_take] at hi
  by_cases hip : i < firstIdx hb (bkts hasher m)
  · rw [if_pos hip] at hi
    have hbi : (bkts hasher m)[i]? = some hb := by
      rw [bkts, List.getElem?_map, hi]
      simpa [bkt] using hcon
    exact getElem?_lt_firstIdx hip hbi
  · rw [if_neg hip] at hi
    cases hi

theorem bucketPush_structInv (m : HashMap K V) (e : K × V)
    (hS : StructInv hasher m) (hcap : 1 ≤ m.pointers.length) :
    StructInv hasher (bucketPush hasher m e) := by
  have hD := hS.2
  have hcapeq := bucketPush_cap hasher m e
  constructor
  · rw [bkts_bucketPush hasher m e hD hcap]
    exact contig_insertAt hS.1
  · intro h hh
    rw [hcapeq] at hh
    rw [bkts_bucketPush hasher m e hD hcap]
    have hmaplen : (m.pointers.map fun q =>
        if firstIdx (hasher e.1 % m.pointers.length) (bkts hasher m) ≤ q then q + 1
        else q).length = m.pointers.length := by
      simp
    by_cases heq : h = hasher e.1 % m.pointers.length
    · subst heq
      rw [bucketPush_eq hasher m e hD hcap]
      simp only
      rw [List.getElem?_set_self (by rw [hmaplen]; exact hh), firstIdx_insertAt_self]
    · rw [bucketPush_eq hasher m e hD hcap]
      simp only
      rw [List.getElem?_set_ne (Ne.symm heq), List.getElem?_map, hD h hh,
        firstIdx_insertAt_other heq]
      rfl

theorem bucketPush_filter_bkt (m : HashMap K V) (e : K × V)
    (hD : DirOk hasher m) (hcap : 1 ≤ m.pointers.length) (hb : Nat) :
    (bucketPush hasher m e).data.filter
        (fun x => decide (hasher x.1 % m.pointers.length = hb)) =
      if hasher e.1 % m.pointers.length = hb
      then e :: m.data.filter (fun x => decide (hasher x.1 % m.pointers.length = hb))
      else m.data.filter (fun x => decide (hasher x.1 % m.pointers.length = hb)) := by
  rw [bucketPush_eq hasher m e hD hcap]
  simp only [List.filter_append, List.filter_cons]
  by_cases hbe : hasher e.1 % m.pointers.length = hb
  · rw [if_pos hbe]
    have htake : (m.data.take (firstIdx (hasher e.1 % m.pointers.length)
        (bkts hasher m))).filter (fun x => decide (hasher x.1 % m.pointers.length = hb)) = [] := by
      rw [List.filter_eq_nil_iff]
      intro x hx
      rw [hbe] at hx
      simpa using take_firstIdx_bkt_ne hasher m hb x hx
    rw [htake]
    simp only [decide_eq_true_eq, if_pos hbe, List.nil_append]
    conv_rhs => rw [← List.take_append_drop
      (firstIdx (hasher e.1 % m.pointers.length) (bkts hasher m)) m.data,
      List.filter_append, htake, List.nil_append]
  · rw [if_neg hbe]
    simp only [decide_eq_true_eq, if_neg hbe]
    conv_rhs => rw [← List.take_append_drop
      (firstIdx (hasher e.1 % m.pointers.length) (bkts hasher m)) m.data,
      List.filter_append]

theorem bucketPush_filter_key (m : HashMap K V) (e : K × V)
    (hD : DirOk hasher m) (hcap : 1 ≤ m.pointers.length) (k : K) :
    (bucketPush hasher m e).data.filter (fun x => decide (x.1 = k)) =
      if e.1 = k then e :: m.data.filter (fun x => decide (x.1 = k))
      else m.data.filter (fun x => decide (x.1 = k)) := by
  rw [bucketPush_eq hasher m e hD hcap]
  simp only [List.filter_append, List.filter_cons]
  by_cases hek : e.1 = k
  · rw [if_pos hek]
    have htake : (m.data.take (firstIdx (hasher e.1 % m.pointers.length)
        (bkts hasher m))).filter (fun x => decide (x.1 = k)) = [] := by
      rw [List.filter_eq_nil_iff]
      intro x hx hxk
      apply take_firstIdx_bkt_ne hasher m (hasher e.1 % m.pointers.length) x hx
      have : x.1 = k := by simpa using hxk
      rw [this, ← hek]
    rw [htake]
    simp only [decide_eq_true_eq, if_pos hek, List.nil_append]
    conv_rhs => rw [← List.take_append_drop
      (firstIdx (hasher e.1 % m.pointers.length) (bkts hasher m)) m.data,
      List.filter_append, htake, List.nil_append]
  · rw [if_neg hek]
    simp only [decide_eq_true_eq, if_neg hek]
    conv_rhs => rw [← List.take_append_drop
      (firstIdx (hasher e.1 % m.pointers.length) (bkts hasher m)) m.data,
      List.filter_append]

/-! ### The rehash loop of `reallocate` -/

theorem foldPush_inv (n : Nat) :
    ∀ (l : List (K × V)) (acc : HashMap K V),
      StructInv hasher acc → acc.pointers.length = n → 1 ≤ n →
      StructInv hasher (l.foldl (fun a e => bucketPush hasher a e) acc) ∧
      (l.foldl (fun a e => bucketPush hasher a e) acc).pointers.length = n ∧
      (l.foldl (fun a e => bucketPush hasher a e) acc).sz = acc.sz ∧
      (l.foldl (fun a e => bucketPush hasher a e) acc).data.length =
        acc.data.length + l.length ∧
      (∀ k : K, (l.foldl (fun a e => bucketPush hasher a e) acc).data.filter
          (fun x => decide (x.1 = k)) =
        (l.filter (fun x => decide (x.1 = k))).reverse ++
          acc.data.filter (fun x => decide (x.1 = k))) ∧
      (∀ hb : Nat, (l.foldl (fun a e => bucketPush hasher a e) acc).data.filter
          (fun x => decide (hasher x.1 % n = hb)) =
        (l.filter (fun x => decide (hasher x.1 % n = hb))).reverse ++
          acc.data.filter (fun x => decide (hasher x.1 % n = hb))) := by
  intro l
  induction l with
  | nil =>
    intro acc hS hcap hn
    exact ⟨hS, hcap, rfl, by simp, by simp, by simp⟩
  | cons e es ih =>
    intro acc hS hcap hn
    have hcap1 : 1 ≤ acc.pointers.length := by omega
    have hS1 := bucketPush_structInv hasher acc e hS hcap1
    have hcap2 : (bucketPush hasher acc e).pointers.length = n := by
      rw [bucketPush_cap]
      exact hcap
    obtain ⟨r1, r2, r3, r4, r5, r6⟩ := ih (bucketPush hasher acc e) hS1 hcap2 hn
    refine ⟨r1, r2, ?_, ?_, ?_, ?_⟩
    · rw [List.foldl_cons]
      rw [r3, bucketPush_sz]
    · rw [List.foldl_cons]
      rw [r4, bucketPush_length hasher acc e hS.2 hcap1, List.length_cons]
      omega
    · intro k
      rw [List.foldl_cons]
      rw [r5 k, bucketPush_filter_key hasher acc e hS.2 hcap1 k]
      by_cases hek : e.1 = k
      · rw [if_pos hek, List.filter_cons_of_pos (by simpa using hek)]
        simp
      · rw [if_neg hek, List.filter_cons_of_neg (by simpa using hek)]
    · intro hb
      rw [List.foldl_cons]
      rw [r6 hb]
      have hpf := bucketPush_filter_bkt hasher acc e hS.2 hcap1 hb
      rw [hcap] at hpf
      rw [hpf]
      by_cases hbe : hasher e.1 % n = hb
      · rw [if_pos hbe, List.filter_cons_of_pos (by simpa using hbe)]
        simp
      · rw [if_neg hbe, List.filter_cons_of_neg (by simpa using hbe)]

theorem hmRealloc_inv (m : HashMap K V) (n : Nat) (hn : 1 ≤ n) :
    StructInv hasher (hmRealloc hasher m n) ∧
    (hmRealloc hasher m n).pointers.length = n ∧
    (hmRealloc hasher m n).sz = m.sz ∧
    (hmRealloc hasher m n).data.length = m.data.length ∧
    (∀ k : K, (hmRealloc hasher m n).data.filter (fun x => decide (x.1 = k)) =
      (m.data.filter (fun x => decide (x.1 = k))).reverse) ∧
    (∀ hb : Nat, (hmRealloc hasher m n).data.filter
        (fun x => decide (hasher x.1 % n = hb)) =
      (m.data.filter (fun x => decide (hasher x.1 % n = hb))).reverse) := by
  have hinit : StructInv hasher
      ({ sz := m.sz, data := [], pointers := List.replicate n 0 } : HashMap K V) := by
    constructor
    · intro i j k b _ _ h1 _
      simp [bkts] at h1
    · intro h hh
      rw [List.length_replicate] at hh
      rw [List.getElem?_replicate, if_pos hh]
      simp [bkts, firstIdx]
  obtain ⟨r1, r2, r3, r4, r5, r6⟩ := foldPush_inv hasher n m.data
    { sz := m.sz, data := [], pointers := List.replicate n 0 }
    hinit (by simp) hn
  exact ⟨r1, r2, r3, by simpa using r4, fun k => by simpa using r5 k,
    fun hb => by simpa using r6 hb⟩

/-- If every key-`k` entry satisfies `q`, searching for key `k` is
unaffected by filtering with `q`. -/
theorem find?_congr_filter (l : List (K × V)) (k : K) (q : K × V → Bool)
    (himp : ∀ x : K × V, x.1 = k → q x = true) :
    l.find? (fun e => decide (e.1 = k)) =
      (l.filter q).find? (fun e => decide (e.1 = k)) := by
  induction l with
  | nil => rfl
  | cons e es ih =>
    by_cases hek : e.1 = k
    · rw [List.find?_cons_of_pos _ (by simpa using hek), List.filter_cons_of_pos (himp e hek),
        List.find?_cons_of_pos _ (by simpa using hek)]
    · rw [List.find?_cons_of_neg _ (by simpa using hek)]
      by_cases hq : q e
      · rw [List.filter_cons_of_pos hq, List.find?_cons_of_neg _ (by simpa using hek)]
        exact ih
      · rw [List.filter_cons_of_neg (by simpa using hq)]
        exact ih

/-- After a rehash at capacity `n ≥ 1`, `find` locates the key-`k`
entry that occurred last in the pre-rehash chain order. -/
theorem hmRealloc_findEntry (m : HashMap K V) (n : Nat) (hn : 1 ≤ n) (k : K) :
    hmFindEntry hasher (hmRealloc hasher m n) k =
      m.data.reverse.find? (fun e => decide (e.1 = k)) := by
  obtain ⟨r1, r2, r3, r4, r5, r6⟩ := hmRealloc_inv hasher m n hn
  have hfs := find_spec hasher (hmRealloc hasher m n) k r1 (by omega)
  rw [hmFindEntry, hfs]
  have himp : ∀ x : K × V, x.1 = k → (fun x => decide (hasher x.1 % n = hasher k % n)) x
      = true := by
    intro x hx
    simp [hx]
  calc (hmRealloc hasher m n).data.find? (fun e => decide (e.1 = k))
      = ((hmRealloc hasher m n).data.filter
          (fun x => decide (hasher x.1 % n = hasher k % n))).find?
          (fun e => decide (e.1 = k)) :=
        find?_congr_filter (hmRealloc hasher m n).data k _ himp
    _ = ((m.data.filter (fun x => decide (hasher x.1 % n = hasher k % n))).reverse).find?
          (fun e => decide (e.1 = k)) := by rw [r6]
    _ = (m.data.reverse.filter
          (fun x => decide (hasher x.1 % n = hasher k % n))).find?
          (fun e => decide (e.1 = k)) := by rw [List.filter_reverse]
    _ = m.data.reverse.find? (fun e => decide (e.1 = k)) :=
        (find?_congr_filter m.data.reverse k _ himp).symm

/-! ### Preservation of the structural invariant by the erase body -/

theorem getD_point (m : HashMap K V) (h : Nat)
    (hD : DirOk hasher m) (hh : h < m.pointers.length) :
    m.pointers.getD h m.data.length = firstIdx h (bkts hasher m) := by
  rw [List.getD_eq_getElem?_getD, hD _ hh]
  rfl

theorem hmEraseCore_cap (m : HashMap K V) (k : K) (p : Nat) :
    (hmEraseCore hasher m k p).pointers.length = m.pointers.length := by
  simp only [hmEraseCore, List.length_map]
  split
  · rw [List.length_set]
  · rfl

theorem bkts_hmEraseCore (m : HashMap K V) (k : K) (p : Nat) :
    bkts hasher (hmEraseCore hasher m k p) = (bkts hasher m).eraseIdx p := by
  rw [bkts, hmEraseCore_cap]
  show ((m.data.eraseIdx p).map (bkt hasher m.pointers.length)) = _
  rw [map_eraseIdx']
  rfl

theorem hmEraseCore_structInv (m : HashMap K V) (k : K) (p : Nat) (ep : K × V)
    (hS : StructInv hasher m) (hcap : 1 ≤ m.pointers.length)
    (hpe : m.data[p]? = some ep) (hepk : ep.1 = k) :
    StructInv hasher (hmEraseCore hasher m k p) := by
  have hh : hasher k % m.pointers.length < m.pointers.length := Nat.mod_lt _ hcap
  have hplen : p < m.data.length := by
    by_contra hcon
    rw [List.getElem?_eq_none (by omega)] at hpe
    cases hpe
  have hBlen : (bkts hasher m).length = m.data.length := length_bkts hasher m
  have hBp : (bkts hasher m)[p]? = some (hasher k % m.pointers.length) := by
    rw [bkts, List.getElem?_map, hpe]
    simp [bkt, hepk]
  have hfle : firstIdx (hasher k % m.pointers.length) (bkts hasher m) ≤ p := by
    by_contra hcon
    exact getElem?_lt_firstIdx (by omega) hBp
  have hgetD := getD_point hasher m (hasher k % m.pointers.length) hS.2 hh
  constructor
  · rw [bkts_hmEraseCore]
    exact contig_eraseIdx hS.1 (by omega)
  · intro c hc
    rw [hmEraseCore_cap] at hc
    rw [bkts_hmEraseCore]
    simp only [hmEraseCore, List.getElem?_map]
    by_cases hhead : firstIdx (hasher k % m.pointers.length) (bkts hasher m) = p
    · rw [if_pos (by rw [hgetD]; exact hhead)]
      by_cases hch : c = hasher k % m.pointers.length
      · subst hch
        rw [List.getElem?_set_self (by omega)]
        cases hnx : m.data[p + 1]? with
        | some e2 =>
          show Option.map (fun q => if p < q then q - 1 else q)
              (some (if hasher e2.1 % m.pointers.length = hasher k % m.pointers.length
                then p + 1 else m.data.length)) =
            some (firstIdx (hasher k % m.pointers.length) ((bkts hasher m).eraseIdx p))
          by_cases hb2 : hasher e2.1 % m.pointers.length = hasher k % m.pointers.length
          · rw [if_pos hb2]
            have hnext : (bkts hasher m)[p + 1]? = some (hasher k % m.pointers.length) := by
              rw [bkts, List.getElem?_map, hnx]
              simpa [bkt] using hb2
            rw [firstIdx_eraseIdx_head_next (by omega) hhead hnext]
            rw [Option.map_some', if_pos (Nat.lt_succ_self p)]
            simp
          · rw [if_neg hb2]
            have hnext : (bkts hasher m)[p + 1]? ≠ some (hasher k % m.pointers.length) := by
              rw [bkts, List.getElem?_map, hnx]
              simpa [bkt] using hb2
            rw [firstIdx_eraseIdx_head_end hS.1 (by omega) hBp hhead hnext]
            rw [Option.map_some', if_pos hplen, hBlen]
        | none =>
          show Option.map (fun q => if p < q then q - 1 else q) (some m.data.length) =
            some (firstIdx (hasher k % m.pointers.length) ((bkts hasher m).eraseIdx p))
          have hnext : (bkts hasher m)[p + 1]? ≠ some (hasher k % m.pointers.length) := by
            rw [bkts, List.getElem?_map, hnx]
            simp
          rw [firstIdx_eraseIdx_head_end hS.1 (by omega) hBp hhead hnext]
          rw [Option.map_some', if_pos hplen, hBlen]
      · rw [List.getElem?_set_ne (Ne.symm hch), hS.2 c hc,
          firstIdx_eraseIdx_other (by omega) hBp hch]
        rfl
    · rw [if_neg (by rw [hgetD]; exact hhead)]
      by_cases hch : c = hasher k % m.pointers.length
      · subst hch
        rw [hS.2 _ hc, firstIdx_eraseIdx_mid (by omega) (by omega)]
        rw [Option.map_some']
        congr 1
        have : ¬ p < firstIdx (hasher k % m.pointers.length) (bkts hasher m) := by omega
        rw [if_neg this]
      · rw [hS.2 c hc, firstIdx_eraseIdx_other (by omega) hBp hch]
        rfl

/-! ### Invariant preservation by every public operation -/

theorem hmInsertRaw_eq (m : HashMap K V) (e : K × V) :
    hmInsertRaw hasher m e =
      if (bucketPush hasher { m with sz := m.sz + 1 } e).pointers.length <
          2 * (bucketPush hasher { m with sz := m.sz + 1 } e).sz
      then hmRealloc hasher (bucketPush hasher { m with sz := m.sz + 1 } e)
        ((bucketPush hasher { m with sz := m.sz + 1 } e).pointers.length * 2)
      else bucketPush hasher { m with sz := m.sz + 1 } e := rfl

theorem hmInsertRaw_inv (m : HashMap K V) (e : K × V) (hI : Inv hasher m) :
    Inv hasher (hmInsertRaw hasher m e) := by
  obtain ⟨hS, hsz, hcap, hlo, hhi⟩ := hI
  have hS1 : StructInv hasher (bucketPush hasher { m with sz := m.sz + 1 } e) :=
    bucketPush_structInv hasher _ e hS hcap
  have hcap1 : (bucketPush hasher { m with sz := m.sz + 1 } e).pointers.length =
      m.pointers.length := bucketPush_cap hasher _ e
  have hsz1 : (bucketPush hasher { m with sz := m.sz + 1 } e).sz = m.sz + 1 :=
    bucketPush_sz hasher _ e
  have hlen1 : (bucketPush hasher { m with sz := m.sz + 1 } e).data.length =
      m.data.length + 1 := bucketPush_length hasher _ e hS.2 hcap
  rw [hmInsertRaw_eq]
  by_cases hg : (bucketPush hasher { m with sz := m.sz + 1 } e).pointers.length <
      2 * (bucketPush hasher { m with sz := m.sz + 1 } e).sz
  · rw [if_pos hg]
    rw [hcap1, hsz1] at hg
    obtain ⟨r1, r2, r3, r4, _, _⟩ := hmRealloc_inv hasher
      (bucketPush hasher { m with sz := m.sz + 1 } e)
      ((bucketPush hasher { m with sz := m.sz + 1 } e).pointers.length * 2)
      (by rw [hcap1]; omega)
    refine ⟨r1, ?_, ?_, ?_, ?_⟩
    · rw [r3, r4, hsz1, hlen1]
      omega
    · rw [r2, hcap1]
      omega
    · rw [r2, r3, hcap1, hsz1]
      omega
    · rw [r2, r3, hcap1, hsz1]
      have h16 : 16 ≤ max 16 (10 * (m.sz + 1)) := Nat.le_max_left _ _
      have h10 : 10 * (m.sz + 1) ≤ max 16 (10 * (m.sz + 1)) := Nat.le_max_right _ _
      omega
  · rw [if_neg hg]
    rw [hcap1, hsz1] at hg
    refine ⟨hS1, ?_, ?_, ?_, ?_⟩
    · rw [hsz1, hlen1]
      omega
    · rw [hcap1]
      omega
    · rw [hcap1, hsz1]
      omega
    · rw [hcap1, hsz1]
      have h16 : 16 ≤ max 16 (10 * m.sz) := Nat.le_max_left _ _
      have h10 : 10 * m.sz ≤ max 16 (10 * m.sz) := Nat.le_max_right _ _
      have h16a : 16 ≤ max 16 (10 * (m.sz + 1)) := Nat.le_max_left _ _
      have h10a : 10 * (m.sz + 1) ≤ max 16 (10 * (m.sz + 1)) := Nat.le_max_right _ _
      have hmax : max 16 (10 * m.sz) ≤ max 16 (10 * (m.sz + 1)) := by
        apply Nat.max_le.mpr
        exact ⟨h16a, by omega⟩
      omega

theorem hmInsert_inv (m : HashMap K V) (e : K × V) (hI : Inv hasher m) :
    Inv hasher (hmInsert hasher m e) := by
  rw [hmInsert]
  split
  · exact hmInsertRaw_inv hasher m e hI
  · exact hI

theorem hmIdxState_inv (m : HashMap K V) (k : K) (d : V) (hI : Inv hasher m) :
    Inv hasher (hmIdxState hasher m k d) := by
  rw [hmIdxState]
  split
  · exact hmInsertRaw_inv hasher m (k, d) hI
  · exact hI

theorem hmDefault_inv : Inv hasher (hmDefault : HashMap K V) := by
  refine ⟨⟨?_, ?_⟩, rfl, by simp [hmDefault], by simp [hmDefault], by simp [hmDefault]⟩
  · intro i j k b _ _ h1 _
    simp [bkts, hmDefault] at h1
  · intro h hh
    simp only [hmDefault, List.length_replicate] at hh
    simp only [hmDefault]
    rw [List.getElem?_replicate, if_pos hh]
    rfl

theorem hmClear_eq (m : HashMap K V) : hmClear m = (hmDefault : HashMap K V) := rfl

theorem hmClear_inv (m : HashMap K V) : Inv hasher (hmClear m) := hmDefault_inv hasher

theorem hmFromList_inv (l : List (K × V)) : Inv hasher (hmFromList hasher l) := by
  obtain ⟨r1, r2, r3, r4, _, _⟩ := hmRealloc_inv hasher
    (⟨l.length, l, []⟩ : HashMap K V) (2 * l.length + 1) (by omega)
  dsimp only at r2 r3 r4
  refine ⟨r1, ?_, ?_, ?_, ?_⟩
  · rw [hmFromList, r3, r4]
  · rw [hmFromList, r2]
    omega
  · rw [hmFromList, r2, r3]
    omega
  · rw [hmFromList, r2, r3]
    have h16 : 16 ≤ max 16 (10 * l.length) := Nat.le_max_left _ _
    have h10 : 10 * l.length ≤ max 16 (10 * l.length) := Nat.le_max_right _ _
    omega

theorem hmCopy_inv (src : HashMap K V) : Inv hasher (hmCopy hasher src) :=
  hmFromList_inv hasher src.data

theorem hmAssign_inv (src : HashMap K V) (hI : Inv hasher src) :
    Inv hasher (hmAssign hasher src) := by
  obtain ⟨hS, hsz, hcap, hlo, hhi⟩ := hI
  obtain ⟨r1, r2, r3, r4, _, _⟩ := hmRealloc_inv hasher
    (⟨src.sz, src.data, src.pointers⟩ : HashMap K V) src.pointers.length hcap
  dsimp only at r2 r3 r4
  refine ⟨r1, ?_, ?_, ?_, ?_⟩
  · rw [hmAssign, r3, r4]
    exact hsz
  · rw [hmAssign, r2]
    exact hcap
  · rw [hmAssign, r2, r3]
    exact hlo
  · rw [hmAssign, r2, r3]
    exact hhi

theorem hmErase_eq_hit (m : HashMap K V) (k : K) (hp : ¬ hmFind hasher m k = m.data.length) :
    hmErase hasher m k =
      if 10 * (hmEraseCore hasher m k (hmFind hasher m k)).sz <
          (hmEraseCore hasher m k (hmFind hasher m k)).pointers.length
      then hmRealloc hasher (hmEraseCore hasher m k (hmFind hasher m k))
        ((hmEraseCore hasher m k (hmFind hasher m k)).pointers.length / 2)
      else hmEraseCore hasher m k (hmFind hasher m k) := by
  rw [hmErase]
  simp only [if_neg hp]

theorem hmErase_miss (m : HashMap K V) (k : K) (hp : hmFind hasher m k = m.data.length) :
    hmErase hasher m k = m := by
  rw [hmErase]
  simp only [if_pos hp]

theorem hmErase_inv (m : HashMap K V) (k : K) (hI : Inv hasher m) :
    Inv hasher (hmErase hasher m k) := by
  obtain ⟨hS, hsz, hcap, hlo, hhi⟩ := hI
  by_cases hp : hmFind hasher m k = m.data.length
  · rw [hmErase_miss hasher m k hp]
    exact ⟨hS, hsz, hcap, hlo, hhi⟩
  · have hplt : hmFind hasher m k < m.data.length := by
      have := hmFind_le hasher m k
      omega
    have hpe : m.data[hmFind hasher m k]? = some m.data[hmFind hasher m k] :=
      List.getElem?_eq_getElem hplt
    have hfk : m.data[hmFind hasher m k].1 = k := by
      have hfs := find_spec hasher m k ⟨hS.1, hS.2⟩ hcap
      rw [hpe] at hfs
      have := List.find?_some hfs.symm
      simpa using this
    have hS1 := hmEraseCore_structInv hasher m k (hmFind hasher m k) _
      ⟨hS.1, hS.2⟩ hcap hpe hfk
    have hcap1 := hmEraseCore_cap hasher m k (hmFind hasher m k)
    have hsz1 : (hmEraseCore hasher m k (hmFind hasher m k)).sz = m.sz - 1 := rfl
    have hlen1 : (hmEraseCore hasher m k (hmFind hasher m k)).data.length =
        m.data.length - 1 := length_eraseIdx' _ _ hplt
    have hdlen : 1 ≤ m.data.length := by omega
    rw [hmErase_eq_hit hasher m k hp]
    by_cases hshr : 10 * (hmEraseCore hasher m k (hmFind hasher m k)).sz <
        (hmEraseCore hasher m k (hmFind hasher m k)).pointers.length
    · rw [if_pos hshr]
      rw [hcap1, hsz1] at hshr
      have hcap2 : 2 ≤ m.pointers.length := by omega
      obtain ⟨r1, r2, r3, r4, _, _⟩ := hmRealloc_inv hasher
        (hmEraseCore hasher m k (hmFind hasher m k))
        ((hmEraseCore hasher m k (hmFind hasher m k)).pointers.length / 2)
        (by rw [hcap1]; omega)
      refine ⟨r1, ?_, ?_, ?_, ?_⟩
      · rw [r3, r4, hsz1, hlen1]
        omega
      · rw [r2, hcap1]
        omega
      · rw [r2, r3, hcap1, hsz1]
        omega
      · rw [r2, r3, hcap1, hsz1]
        have h16 : 16 ≤ max 16 (10 * m.sz) := Nat.le_max_left _ _
        have h10 : 10 * m.sz ≤ max 16 (10 * m.sz) := Nat.le_max_right _ _
        have h16a : 16 ≤ max 16 (10 * (m.sz - 1)) := Nat.le_max_left _ _
        have h10a : 10 * (m.sz - 1) ≤ max 16 (10 * (m.sz - 1)) := Nat.le_max_right _ _
        have hmx : max 16 (10 * m.sz) ≤ 16 + 10 * m.sz := by
          apply Nat.max_le.mpr
          omega
        have hmx2 : (16 : Nat) ≤ max 16 (10 * (m.sz - 1)) := h16a
        omega
    · rw [if_neg hshr]
      rw [hcap1, hsz1] at hshr
      refine ⟨hS1, ?_, ?_, ?_, ?_⟩
      · rw [hsz1, hlen1]
        omega
      · rw [hcap1]
        omega
      · rw [hcap1, hsz1]
        omega
      · rw [hcap1, hsz1]
        have h16a : 16 ≤ max 16 (10 * (m.sz - 1)) := Nat.le_max_left _ _
        have h10a : 10 * (m.sz - 1) ≤ max 16 (10 * (m.sz - 1)) := Nat.le_max_right _ _
        omega

/-- Every reachable state satisfies the full invariant. -/
theorem reachable_inv (m : HashMap K V) (h : Reachable hasher m) : Inv hasher m := by
  induction h with
  | base => exact hmDefault_inv hasher
  | ofList l => exact hmFromList_inv hasher l
  | ins m e _ ih => exact hmInsert_inv hasher m e ih
  | del m k _ ih => exact hmErase_inv hasher m k ih
  | clr m _ => exact hmClear_inv hasher m
  | idx m k d _ ih => exact hmIdxState_inv hasher m k d ih
  | assign src _ ih => exact hmAssign_inv hasher src ih
  | copy src _ _ => exact hmCopy_inv hasher src

/-! ### Tracking the entries of a fixed key across operations -/

theorem hmInsertRaw_filter_key (m : HashMap K V) (e : K × V)
    (hS : StructInv hasher m) (hcap : 1 ≤ m.pointers.length) (k : K) :
    List.Perm ((hmInsertRaw hasher m e).data.filter (fun x => decide (x.1 = k)))
      (if e.1 = k then e :: m.data.filter (fun x => decide (x.1 = k))
       else m.data.filter (fun x => decide (x.1 = k))) := by
  have hpf := bucketPush_filter_key hasher { m with sz := m.sz + 1 } e hS.2 hcap k
  rw [hmInsertRaw_eq]
  split
  · obtain ⟨_, _, _, _, r5, _⟩ := hmRealloc_inv hasher
      (bucketPush hasher { m with sz := m.sz + 1 } e)
      ((bucketPush hasher { m with sz := m.sz + 1 } e).pointers.length * 2)
      (by rw [bucketPush_cap]; dsimp only; omega)
    rw [r5 k, hpf]
    exact List.reverse_perm _
  · rw [hpf]

theorem hmEraseCore_data (m : HashMap K V) (k : K) (p : Nat) :
    (hmEraseCore hasher m k p).data = m.data.eraseIdx p := rfl

theorem hmErase_filter_key (m : HashMap K V) (k : K)
    (hI : Inv hasher m) (hp : ¬ hmFind hasher m k = m.data.length) (c : K) :
    List.Perm ((hmErase hasher m k).data.filter (fun x => decide (x.1 = c)))
      ((m.data.eraseIdx (hmFind hasher m k)).filter (fun x => decide (x.1 = c))) := by
  obtain ⟨hS, hsz, hcap, hlo, hhi⟩ := hI
  have hplt : hmFind hasher m k < m.data.length := by
    have := hmFind_le hasher m k
    omega
  have hcap2 : 2 ≤ m.pointers.length := by omega
  rw [hmErase_eq_hit hasher m k hp]
  split
  · obtain ⟨_, _, _, _, r5, _⟩ := hmRealloc_inv hasher
      (hmEraseCore hasher m k (hmFind hasher m k))
      ((hmEraseCore hasher m k (hmFind hasher m k)).pointers.length / 2)
      (by rw [hmEraseCore_cap]; omega)
    rw [r5 c, hmEraseCore_data]
    exact List.reverse_perm _
  · rw [hmEraseCore_data]

theorem filter_eraseIdx_of_key_ne (l : List (K × V)) (p : Nat) (ep : K × V)
    (hpe : l[p]? = some ep) (c : K) (hne : ¬ ep.1 = c) :
    (l.eraseIdx p).filter (fun x => decide (x.1 = c)) =
      l.filter (fun x => decide (x.1 = c)) := by
  have hplt : p < l.length := by
    by_contra hcon
    rw [List.getElem?_eq_none (by omega)] at hpe
    cases hpe
  have hdrop : l.drop p = ep :: l.drop (p + 1) := by
    rw [List.drop_eq_getElem_cons hplt]
    congr 1
    have := List.getElem?_eq_getElem hplt
    rw [this] at hpe
    exact Option.some_inj.mp hpe
  conv_rhs => rw [← List.take_append_drop p l, hdrop]
  rw [List.eraseIdx_eq_take_drop_succ, List.filter_append, List.filter_append,
    List.filter_cons_of_neg (by simpa using hne)]

theorem length_filter_key_le_one (l : List (K × V)) (c : K)
    (hnd : (l.map Prod.fst).Nodup) :
    (l.filter (fun x => decide (x.1 = c))).length ≤ 1 := by
  induction l with
  | nil => simp
  | cons e es ih =>
    rw [List.map_cons, List.nodup_cons] at hnd
    by_cases hek : e.1 = c
    · rw [List.filter_cons_of_pos (by simpa using hek)]
      have hnil : es.filter (fun x => decide (x.1 = c)) = [] := by
        rw [List.filter_eq_nil_iff]
        intro x hx hcon
        apply hnd.1
        rw [List.mem_map]
        exact ⟨x, hx, by rw [hek]; simpa using hcon⟩
      rw [hnil]
      simp
    · rw [List.filter_cons_of_neg (by simpa using hek)]
      exact ih hnd.2

theorem filter_eraseIdx_of_key_eq_nodup (l : List (K × V)) (p : Nat) (ep : K × V)
    (hpe : l[p]? = some ep) (c : K) (hk : ep.1 = c)
    (hnd : (l.map Prod.fst).Nodup) :
    (l.eraseIdx p).filter (fun x => decide (x.1 = c)) = [] := by
  have hplt : p < l.length := by
    by_contra hcon
    rw [List.getElem?_eq_none (by omega)] at hpe
    cases hpe
  have hdrop : l.drop p = ep :: l.drop (p + 1) := by
    rw [List.drop_eq_getElem_cons hplt]
    congr 1
    have := List.getElem?_eq_getElem hplt
    rw [this] at hpe
    exact Option.some_inj.mp hpe
  have hsplit : l.filter (fun x => decide (x.1 = c)) =
      (l.take p).filter (fun x => decide (x.1 = c)) ++
        ep :: (l.drop (p + 1)).filter (fun x => decide (x.1 = c)) := by
    conv_lhs => rw [← List.take_append_drop p l, hdrop]
    rw [List.filter_append, List.filter_cons_of_pos (by simpa using hk)]
  have hle := length_filter_key_le_one l c hnd
  rw [hsplit] at hle
  simp only [List.length_append, List.length_cons] at hle
  rw [List.eraseIdx_eq_take_drop_succ, List.filter_append]
  have h1 : ((l.take p).filter (fun x => decide (x.1 = c))).length = 0 := by omega
  have h2 : ((l.drop (p + 1)).filter (fun x => decide (x.1 = c))).length = 0 := by omega
  rw [List.length_eq_zero] at h1 h2
  rw [h1, h2]
  rfl

/-! ### Lookup results in terms of the key filter -/

theorem hmFindValue_eq_filter (m : HashMap K V) (k : K)
    (hS : StructInv hasher m) (hcap : 1 ≤ m.pointers.length) :
    hmFindValue hasher m k =
      ((m.data.filter (fun x => decide (x.1 = k))).head?).map (fun e => e.2) := by
  rw [hmFindValue, hmFindEntry, find_spec hasher m k hS hcap, find?_eq_head?_filter]

theorem hmAt_ok_iff (m : HashMap K V) (k : K) (v : V) :
    hmAt hasher m k = Except.ok v ↔ hmFindValue hasher m k = some v := by
  rw [hmAt, hmFindValue, hmFindEntry]
  cases h : m.data[hmFind hasher m k]? with
  | none => simp
  | some e => simp

theorem hmAt_error_iff (m : HashMap K V) (k : K) :
    hmAt hasher m k = Except.error () ↔ hmFindValue hasher m k = none := by
  rw [hmAt, hmFindValue, hmFindEntry]
  cases h : m.data[hmFind hasher m k]? with
  | none => simp
  | some e => simp

/-! ### Sequences of inserts and erases (for the round-trip property) -/

/-- A public mutation: an insert or an erase. -/
inductive HOp (K V : Type) where
  | ins : K × V → HOp K V
  | del : K → HOp K V
deriving DecidableEq

/-- The key an operation touches. -/
def opKey : HOp K V → K
  | .ins e => e.1
  | .del k => k

/-- Run one operation. -/
def applyOp (m : HashMap K V) : HOp K V → HashMap K V
  | .ins e => hmInsert hasher m e
  | .del k => hmErase hasher m k

theorem applyOp_inv (m : HashMap K V) (op : HOp K V) (hI : Inv hasher m) :
    Inv hasher (applyOp hasher m op) := by
  cases op with
  | ins e => exact hmInsert_inv hasher m e hI
  | del k => exact hmErase_inv hasher m k hI

theorem applyOp_filter_key (m : HashMap K V) (op : HOp K V) (k : K)
    (hI : Inv hasher m) (hne : ¬ opKey op = k) :
    List.Perm ((applyOp hasher m op).data.filter (fun x => decide (x.1 = k)))
      (m.data.filter (fun x => decide (x.1 = k))) := by
  cases op with
  | ins e =>
    rw [applyOp, hmInsert]
    split
    · have hperm := hmInsertRaw_filter_key hasher m e hI.1 hI.2.2.1 k
      rw [if_neg (by simpa [opKey] using hne)] at hperm
      exact hperm
    · exact List.Perm.refl _
  | del c =>
    by_cases hp : hmFind hasher m c = m.data.length
    · rw [applyOp, hmErase_miss hasher m c hp]
    · have hplt : hmFind hasher m c < m.data.length := by
        have := hmFind_le hasher m c
        omega
      have hpe : m.data[hmFind hasher m c]? = some m.data[hmFind hasher m c] :=
        List.getElem?_eq_getElem hplt
      have hfk : m.data[hmFind hasher m c].1 = c := by
        have hfs := find_spec hasher m c hI.1 hI.2.2.1
        rw [hpe] at hfs
        have := List.find?_some hfs.symm
        simpa using this
      have hperm := hmErase_filter_key hasher m c hI hp k
      rw [applyOp]
      refine hperm.trans ?_
      rw [filter_eraseIdx_of_key_ne m.data _ _ hpe k (by rw [hfk]; simpa [opKey] using hne)]

theorem foldOps_filter_key (k : K) :
    ∀ (ops : List (HOp K V)) (m : HashMap K V), Inv hasher m →
      (∀ op ∈ ops, ¬ opKey op = k) →
      Inv hasher (ops.foldl (fun a op => applyOp hasher a op) m) ∧
      List.Perm ((ops.foldl (fun a op => applyOp hasher a op) m).data.filter
          (fun x => decide (x.1 = k)))
        (m.data.filter (fun x => decide (x.1 = k))) := by
  intro ops
  induction ops with
  | nil => intro m hI _; exact ⟨hI, List.Perm.refl _⟩
  | cons op ops ih =>
    intro m hI hall
    have hI1 := applyOp_inv hasher m op hI
    obtain ⟨r1, r2⟩ := ih (applyOp hasher m op) hI1
      (fun o ho => hall o (List.mem_cons_of_mem _ ho))
    refine ⟨r1, r2.trans ?_⟩
    exact applyOp_filter_key hasher m op k hI (hall op (List.mem_cons_self _ _))

/-! ### Size and capacity after a successful erase -/

theorem hmErase_hit_facts (m : HashMap K V) (k : K) (hI : Inv hasher m)
    (hp : ¬ hmFind hasher m k = m.data.length) :
    (hmErase hasher m k).sz = m.sz - 1 ∧
    (hmErase hasher m k).pointers.length =
      (if 10 * (m.sz - 1) < m.pointers.length then m.pointers.length / 2
       else m.pointers.length) := by
  obtain ⟨hS, hsz, hcap, hlo, hhi⟩ := hI
  have hplt : hmFind hasher m k < m.data.length := by
    have := hmFind_le hasher m k
    omega
  have hsge : 1 ≤ m.sz := by omega
  have hcap2 : 2 ≤ m.pointers.length := by omega
  have hsz1 : (hmEraseCore hasher m k (hmFind hasher m k)).sz = m.sz - 1 := rfl
  have hcap1 := hmEraseCore_cap hasher m k (hmFind hasher m k)
  rw [hmErase_eq_hit hasher m k hp]
  by_cases hshr : 10 * (m.sz - 1) < m.pointers.length
  · rw [if_pos (by rw [hsz1, hcap1]; exact hshr), if_pos hshr]
    obtain ⟨_, r2, r3, _, _, _⟩ := hmRealloc_inv hasher
      (hmEraseCore hasher m k (hmFind hasher m k))
      ((hmEraseCore hasher m k (hmFind hasher m k)).pointers.length / 2)
      (by rw [hcap1]; omega)
    exact ⟨by rw [r3, hsz1], by rw [r2, hcap1]⟩
  · rw [if_neg (by rw [hsz1, hcap1]; exact hshr), if_neg hshr]
    exact ⟨hsz1, hcap1⟩

/-! ### Lookup on key-distinct chains -/

theorem find?_reverse_of_nodup (l : List (K × V)) (c : K)
    (hnd : (l.map Prod.fst).Nodup) :
    l.reverse.find? (fun e => decide (e.1 = c)) = l.find? (fun e => decide (e.1 = c)) := by
  rw [find?_eq_head?_filter, find?_eq_head?_filter, List.filter_reverse]
  cases hfil : l.filter (fun e => decide (e.1 = c)) with
  | nil => simp
  | cons a t =>
    have hle := length_filter_key_le_one l c hnd
    rw [hfil] at hle
    simp only [List.length_cons] at hle
    have ht : t = [] := by
      rw [← List.length_eq_zero]
      omega
    subst ht
    simp

/-! ### `find` after the range constructor and after assignment -/

theorem hmFromList_findEntry (l : List (K × V)) (k : K) :
    hmFindEntry hasher (hmFromList hasher l) k =
      l.reverse.find? (fun e => decide (e.1 = k)) := by
  rw [hmFromList]
  have h := hmRealloc_findEntry hasher (⟨l.length, l, []⟩ : HashMap K V)
    (2 * l.length + 1) (by omega) k
  simpa using h

theorem hmAssign_findEntry (src : HashMap K V) (hcap : 1 ≤ src.pointers.length) (k : K) :
    hmFindEntry hasher (hmAssign hasher src) k =
      src.data.reverse.find? (fun e => decide (e.1 = k)) := by
  rw [hmAssign]
  have h := hmRealloc_findEntry hasher (⟨src.sz, src.data, src.pointers⟩ : HashMap K V)
    src.pointers.length hcap k
  simpa using h

theorem hmFindValue_src (m : HashMap K V) (k : K)
    (hS : StructInv hasher m) (hcap : 1 ≤ m.pointers.length) :
    hmFindValue hasher m k =
      (m.data.find? (fun e => decide (e.1 = k))).map (fun e => e.2) := by
  rw [hmFindValue, hmFindEntry, find_spec hasher m k hS hcap]

end Ops

/-! ## Concrete instantiation

`K = V = Nat` with the identity hasher, used by the counterexamples and
witnesses (matching the spec's "assume identity-like hash" scenarios). -/

/-- The identity hasher on natural-number keys. -/
def idh : Nat → Nat := fun n => n

/-- A small reachable table with two distinct keys: insert `(1, 10)`
then `(2, 20)` into a default-constructed table. -/
def mW : HashMap Nat Nat := hmInsert idh (hmInsert idh hmDefault (1, 10)) (2, 20)

theorem mW_reach : Reachable idh mW :=
  Reachable.ins _ _ (Reachable.ins _ _ Reachable.base)

/-- The table after five insert-one-erase-one cycles starting from a
default-constructed table: each cycle halves the capacity. -/
def cycleW : HashMap Nat Nat :=
  (List.range 5).foldl (fun a _ => hmErase idh (hmInsert idh a (1, 1)) 1) hmDefault

/-! ## Claims -/

/-- C1 (amended): after any insert on a reachable state,
`size / capacity ≤ max_ratio`, i.e. `2 * size ≤ capacity`; after an
erase that removes an entry and leaves at least one entry,
`size / capacity ≥ min_ratio`, i.e. `capacity ≤ 10 * size`.  The
original claim also asserted the min-ratio bound after an erase that
empties the table (and after a no-op erase); the counterexample shows
that case halves the capacity only once and violates the bound. -/
theorem claim_C1 {K V : Type} [DecidableEq K] (hasher : K → Nat) (m : HashMap K V)
    (h : Reachable hasher m) :
    (∀ e : K × V, 2 * (hmInsert hasher m e).sz ≤ (hmInsert hasher m e).pointers.length) ∧
    (∀ k : K, HMem hasher m k → 2 ≤ m.sz →
      (hmErase hasher m k).pointers.length ≤ 10 * (hmErase hasher m k).sz) := by
  have hI := reachable_inv hasher m h
  constructor
  · intro e
    exact (hmInsert_inv hasher m e hI).2.2.2.1
  · intro k hk hs2
    have hp : ¬ hmFind hasher m k = m.data.length := by
      rw [HMem] at hk
      omega
    obtain ⟨hszE, hcapE⟩ := hmErase_hit_facts hasher m k hI hp
    obtain ⟨hS, hszI, hcapI, hlo, hhi⟩ := hI
    have hmax_eq : max 16 (10 * m.sz) = 10 * m.sz := Nat.max_eq_right (by omega)
    rw [hszE, hcapE]
    rw [hmax_eq] at hhi
    by_cases hshr : 10 * (m.sz - 1) < m.pointers.length
    · rw [if_pos hshr]
      omega
    · rw [if_neg hshr]
      omega

/-- C1, counterexample: insert one key into a fresh table and erase it
again; the erase shrinks the capacity from 16 to 8 only once, so the
table ends at size 0, capacity 8, violating
`size / capacity ≥ min_ratio` immediately after the erase. -/
theorem claim_C1_cex :
    (hmErase idh (hmInsert idh (hmDefault : HashMap Nat Nat) (1, 1)) 1).sz = 0 ∧
    (hmErase idh (hmInsert idh (hmDefault : HashMap Nat Nat) (1, 1)) 1).pointers.length = 8 ∧
    ¬ (hmErase idh (hmInsert idh (hmDefault : HashMap Nat Nat) (1, 1)) 1).pointers.length ≤
        10 * (hmErase idh (hmInsert idh (hmDefault : HashMap Nat Nat) (1, 1)) 1).sz := by
  decide

/-- C1, witness: the amended bounds at the concrete reachable table
`mW`. -/
theorem claim_C1_witness :
    2 * (hmInsert idh mW (5, 5)).sz ≤ (hmInsert idh mW (5, 5)).pointers.length ∧
    (hmErase idh mW 1).pointers.length ≤ 10 * (hmErase idh mW 1).sz :=
  ⟨(claim_C1 idh mW mW_reach).1 (5, 5),
   (claim_C1 idh mW mW_reach).2 1 (by decide) (by decide)⟩

/-- C2: in every reachable state, the entries of each bucket form one
contiguous run of the chain (`Contig`), and every directory slot holds
the position of the first entry of its bucket, or the end position when
the bucket is empty (`DirOk`). -/
theorem claim_C2 {K V : Type} [DecidableEq K] (hasher : K → Nat) (m : HashMap K V)
    (h : Reachable hasher m) : StructInv hasher m :=
  (reachable_inv hasher m h).1

/-- C2, witness: the structural invariant at the concrete reachable
table `mW`. -/
theorem claim_C2_witness : StructInv idh mW :=
  claim_C2 idh mW mW_reach

/-- C3 (amended): a table built from a sequence of pairs resolves
duplicate keys latest-wins, not first-wins: `find` returns the entry of
the key's last occurrence in the input sequence.  (The rehash loop
pushes each entry to the head of its bucket run, so later occurrences
are scanned first.) -/
theorem claim_C3 {K V : Type} [DecidableEq K] (hasher : K → Nat) (l : List (K × V)) (k : K) :
    hmFindEntry hasher (hmFromList hasher l) k =
      l.reverse.find? (fun e => decide (e.1 = k)) :=
  hmFromList_findEntry hasher l k

/-- C3, counterexample: building from `[(5, 1), (5, 2)]` and looking up
key 5 yields value 2 (the later occurrence), not 1 as the claim
states. -/
theorem claim_C3_cex :
    hmFindValue idh (hmFromList idh [(5, 1), (5, 2)]) 5 = some 2 ∧
    ¬ hmFindValue idh (hmFromList idh [(5, 1), (5, 2)]) 5 = some 1 := by
  decide

/-- C4: after inserting `(k, v)` into a reachable table not containing
`k`, `find k` and `at k` return `v` after any further sequence of
inserts and erases of other keys (resizes included). -/
theorem claim_C4 {K V : Type} [DecidableEq K] (hasher : K → Nat) (m : HashMap K V)
    (k : K) (v : V) (ops : List (HOp K V)) (hR : Reachable hasher m)
    (hmiss : ¬ HMem hasher m k) (hall : ∀ op ∈ ops, ¬ opKey op = k) :
    hmFindValue hasher
        (ops.foldl (fun a op => applyOp hasher a op) (hmInsert hasher m (k, v))) k =
      some v ∧
    hmAt hasher
        (ops.foldl (fun a op => applyOp hasher a op) (hmInsert hasher m (k, v))) k =
      Except.ok v := by
  have hI := reachable_inv hasher m hR
  have hfl : hmFind hasher m k = m.data.length := by
    have := hmFind_le hasher m k
    rw [HMem] at hmiss
    omega
  have hfilter0 : m.data.filter (fun x => decide (x.1 = k)) = [] := by
    have hfs := find_spec hasher m k hI.1 hI.2.2.1
    rw [hfl, List.getElem?_eq_none (Nat.le_refl _), find?_eq_head?_filter] at hfs
    cases hcase : m.data.filter (fun x => decide (x.1 = k)) with
    | nil => rfl
    | cons a t =>
      rw [hcase] at hfs
      simp at hfs
  have hm1 : hmInsert hasher m (k, v) = hmInsertRaw hasher m (k, v) := by
    rw [hmInsert, if_pos hfl]
  have hI1 : Inv hasher (hmInsert hasher m (k, v)) := hmInsert_inv hasher m (k, v) hI
  have hperm1 : List.Perm
      ((hmInsert hasher m (k, v)).data.filter (fun x => decide (x.1 = k))) [(k, v)] := by
    rw [hm1]
    have hpk := hmInsertRaw_filter_key hasher m (k, v) hI.1 hI.2.2.1 k
    rw [if_pos rfl, hfilter0] at hpk
    exact hpk
  obtain ⟨hIf, hpf⟩ := foldOps_filter_key hasher k ops (hmInsert hasher m (k, v)) hI1 hall
  have hfinal : (ops.foldl (fun a op => applyOp hasher a op)
      (hmInsert hasher m (k, v))).data.filter (fun x => decide (x.1 = k)) = [(k, v)] :=
    List.perm_singleton.mp (hpf.trans hperm1)
  have hval : hmFindValue hasher
      (ops.foldl (fun a op => applyOp hasher a op) (hmInsert hasher m (k, v))) k = some v := by
    rw [hmFindValue_eq_filter hasher _ k hIf.1 hIf.2.2.1, hfinal]
    rfl
  exact ⟨hval, (hmAt_ok_iff hasher _ k v).mpr hval⟩

/-- C4, witness: insert `(7, 42)` into a fresh table, then insert
`(3, 5)`, erase 3 and insert `(8, 9)`; `find 7` and `at 7` still
return 42. -/
theorem claim_C4_witness :
    hmFindValue idh
        (([HOp.ins (3, 5), HOp.del 3, HOp.ins (8, 9)] : List (HOp Nat Nat)).foldl
          (fun a op => applyOp idh a op) (hmInsert idh hmDefault (7, 42))) 7 = some 42 ∧
    hmAt idh
        (([HOp.ins (3, 5), HOp.del 3, HOp.ins (8, 9)] : List (HOp Nat Nat)).foldl
          (fun a op => applyOp idh a op) (hmInsert idh hmDefault (7, 42))) 7 =
      Except.ok 42 :=
  claim_C4 idh hmDefault 7 42 _ Reachable.base (by decide) (by decide)

/-- C5: inserting a key that `find` already resolves is a no-op: the
whole state is returned unchanged, so the stored value stays the first
one, the size is unchanged and no resize occurs. -/
theorem claim_C5 {K V : Type} [DecidableEq K] (hasher : K → Nat) (m : HashMap K V)
    (k : K) (v1 v2 : V) (h : hmFindValue hasher m k = some v1) :
    hmInsert hasher m (k, v2) = m := by
  rw [hmInsert]
  have hne : ¬ hmFind hasher m k = m.data.length := by
    intro hcon
    rw [hmFindValue, hmFindEntry, hcon, List.getElem?_eq_none (Nat.le_refl _)] at h
    simp at h
  rw [if_neg hne]

/-- C5, witness: `insert (5, 1)` then `insert (5, 2)` leaves the state
of the first insert unchanged, and `find 5` returns 1. -/
theorem claim_C5_witness :
    hmInsert idh (hmInsert idh hmDefault (5, 1)) (5, 2) = hmInsert idh hmDefault (5, 1) ∧
    hmFindValue idh (hmInsert idh (hmInsert idh hmDefault (5, 1)) (5, 2)) 5 = some 1 :=
  ⟨claim_C5 idh (hmInsert idh hmDefault (5, 1)) 5 1 2 (by decide), by decide⟩

/-- C6 (amended): on a reachable table whose entries have pairwise
distinct keys, `erase k` is a no-op when `k` is absent, and when `k` is
present it decreases the size by exactly one and makes `find k` fail.
The original claim omitted the distinct-keys condition; the
counterexample shows a duplicate entry from sequence construction stays
findable after the erase. -/
theorem claim_C6 {K V : Type} [DecidableEq K] (hasher : K → Nat) (m : HashMap K V)
    (k : K) (hR : Reachable hasher m) (hnd : (m.data.map Prod.fst).Nodup) :
    (¬ HMem hasher m k → hmErase hasher m k = m) ∧
    (HMem hasher m k → (hmErase hasher m k).sz + 1 = m.sz ∧
      ¬ HMem hasher (hmErase hasher m k) k) := by
  have hI := reachable_inv hasher m hR
  constructor
  · intro hk
    apply hmErase_miss
    have := hmFind_le hasher m k
    rw [HMem] at hk
    omega
  · intro hk
    have hplt : hmFind hasher m k < m.data.length := hk
    have hp : ¬ hmFind hasher m k = m.data.length := by omega
    refine ⟨?_, ?_⟩
    · have h1 := (hmErase_hit_facts hasher m k hI hp).1
      have hsz : m.sz = m.data.length := hI.2.1
      omega
    · have hI2 := hmErase_inv hasher m k hI
      have hpe : m.data[hmFind hasher m k]? = some m.data[hmFind hasher m k] :=
        List.getElem?_eq_getElem hplt
      have hfk : m.data[hmFind hasher m k].1 = k := by
        have hfs := find_spec hasher m k hI.1 hI.2.2.1
        rw [hpe] at hfs
        have := List.find?_some hfs.symm
        simpa using this
      have hperm := hmErase_filter_key hasher m k hI hp k
      rw [filter_eraseIdx_of_key_eq_nodup m.data _ _ hpe k hfk hnd] at hperm
      have hnil := List.Perm.eq_nil hperm
      intro hmem
      obtain ⟨e, he, hek⟩ := (hmem_iff hasher _ k hI2.1 hI2.2.2.1).mp hmem
      have hmemf : e ∈ (hmErase hasher m k).data.filter (fun x => decide (x.1 = k)) :=
        List.mem_filter.mpr ⟨he, by simpa using hek⟩
      rw [hnil] at hmemf
      simp at hmemf

/-- C6, counterexample: after building from `[(5, 1), (5, 2)]`,
`erase 5` removes only one of the two key-5 entries; the size drops to
1 but `find 5` still returns 1 instead of the absent sentinel. -/
theorem claim_C6_cex :
    (hmErase idh (hmFromList idh [(5, 1), (5, 2)]) 5).sz = 1 ∧
    hmFindValue idh (hmErase idh (hmFromList idh [(5, 1), (5, 2)]) 5) 5 = some 1 := by
  decide

/-- C6, witness: erasing the present key 1 from the concrete
distinct-key table `mW` drops the size by one and makes `find 1`
fail. -/
theorem claim_C6_witness :
    (hmErase idh mW 1).sz + 1 = mW.sz ∧ ¬ HMem idh (hmErase idh mW 1) 1 :=
  (claim_C6 idh mW 1 mW_reach (by decide)).2 (by decide)

/-- C7: `at` on an absent key signals the NotFound (out-of-range)
condition and, being a const member, leaves the table unmodified; in
this embedding `at` is the only operation returning `Except` — every
other operation (`insert`, `erase`, index access, `clear`, the
constructors) is a total function into `HashMap`. -/
theorem claim_C7 {K V : Type} [DecidableEq K] (hasher : K → Nat) (m : HashMap K V)
    (k : K) (habs : ¬ HMem hasher m k) :
    hmAt hasher m k = Except.error () ∧ hmAtOp hasher m k = (m, Except.error ()) := by
  have hge : m.data.length ≤ hmFind hasher m k := by
    rw [HMem] at habs
    omega
  have h1 : hmAt hasher m k = Except.error () := by
    rw [hmAt, List.getElem?_eq_none hge]
  exact ⟨h1, by rw [hmAtOp, h1]⟩

/-- C7, witness: `at 42` on a fresh table raises NotFound and leaves
the state untouched. -/
theorem claim_C7_witness :
    hmAt idh (hmDefault : HashMap Nat Nat) 42 = Except.error () ∧
    hmAtOp idh (hmDefault : HashMap Nat Nat) 42 = (hmDefault, Except.error ()) :=
  claim_C7 idh hmDefault 42 (by decide)

/-- C8 (amended): copy-construction rebuilds at the minimal capacity
`2 * size + 1` (`ceil(size / max_ratio) + 1`) while assignment rehashes
at exactly the source's capacity, and on a source whose entries have
pairwise distinct keys both preserve the key-to-value mapping.  The
original claim asserted the mapping equality for every source; the
counterexample shows the rehash of a duplicate-key source reverses each
bucket run, exposing the other duplicate. -/
theorem claim_C8 {K V : Type} [DecidableEq K] (hasher : K → Nat) (src : HashMap K V)
    (hR : Reachable hasher src) (hnd : (src.data.map Prod.fst).Nodup) :
    (hmCopy hasher src).pointers.length = 2 * src.sz + 1 ∧
    (hmAssign hasher src).pointers.length = src.pointers.length ∧
    (∀ k : K, hmFindValue hasher (hmCopy hasher src) k = hmFindValue hasher src k) ∧
    (∀ k : K, hmFindValue hasher (hmAssign hasher src) k = hmFindValue hasher src k) := by
  obtain ⟨hS, hsz, hcap, hlo, hhi⟩ := reachable_inv hasher src hR
  have hcopycap : (hmCopy hasher src).pointers.length = 2 * src.sz + 1 := by
    obtain ⟨_, r2, _, _, _, _⟩ := hmRealloc_inv hasher
      (⟨src.data.length, src.data, []⟩ : HashMap K V) (2 * src.data.length + 1) (by omega)
    rw [hmCopy, hmFromList, r2, hsz]
  have hassigncap : (hmAssign hasher src).pointers.length = src.pointers.length := by
    obtain ⟨_, r2, _, _, _, _⟩ := hmRealloc_inv hasher
      (⟨src.sz, src.data, src.pointers⟩ : HashMap K V) src.pointers.length hcap
    rw [hmAssign, r2]
  refine ⟨hcopycap, hassigncap, ?_, ?_⟩
  · intro k
    rw [hmFindValue, hmCopy, hmFromList_findEntry hasher src.data k,
      find?_reverse_of_nodup src.data k hnd, hmFindValue_src hasher src k hS hcap]
  · intro k
    rw [hmFindValue, hmAssign_findEntry hasher src hcap k,
      find?_reverse_of_nodup src.data k hnd, hmFindValue_src hasher src k hS hcap]

/-- C8, counterexample: on the duplicate-key source built from
`[(5, 1), (5, 2)]`, the source's `find 5` returns 2 but the copy's
`find 5` returns 1 — the copy does not preserve the observable
mapping. -/
theorem claim_C8_cex :
    hmFindValue idh (hmFromList idh [(5, 1), (5, 2)]) 5 = some 2 ∧
    hmFindValue idh (hmCopy idh (hmFromList idh [(5, 1), (5, 2)])) 5 = some 1 := by
  decide

/-- C8, witness: copy and assignment of the concrete distinct-key
table `mW` show the asymmetric capacities and equal lookups. -/
theorem claim_C8_witness :
    (hmCopy idh mW).pointers.length = 2 * mW.sz + 1 ∧
    (hmAssign idh mW).pointers.length = mW.pointers.length ∧
    hmFindValue idh (hmCopy idh mW) 1 = hmFindValue idh mW 1 ∧
    hmFindValue idh (hmAssign idh mW) 2 = hmFindValue idh mW 2 := by
  obtain ⟨h1, h2, h3, h4⟩ := claim_C8 idh mW mW_reach (by decide)
  exact ⟨h1, h2, h3 1, h4 2⟩

/-- C9: `clear` yields exactly the default-constructed state — size 0,
capacity 16, empty chain — whatever the prior history, so all
subsequent behavior coincides with a fresh table; in particular
re-inserting keys 1..9 grows the capacity to 32 at the same threshold
as on a fresh table. -/
theorem claim_C9 (m : HashMap Nat Nat) :
    hmClear m = (hmDefault : HashMap Nat Nat) ∧
    (hmClear m).sz = 0 ∧ (hmClear m).pointers.length = 16 ∧
    ((List.range 9).foldl (fun a i => hmInsert idh a (i + 1, 10 * (i + 1)))
      (hmClear m)).pointers.length = 32 ∧
    ((List.range 9).foldl (fun a i => hmInsert idh a (i + 1, 10 * (i + 1)))
      hmDefault).pointers.length = 32 :=
  ⟨rfl, rfl, by rw [hmClear_eq]; decide, by rw [hmClear_eq]; decide, by decide⟩

/-- C10: every reachable state has capacity at least 1, so the
modulo-by-capacity computations in `find`, `insert` and `erase` never
divide by zero.  The witness exhibits the rest of the claim concretely:
erasing the last entry at capacity 16 shrinks to 8, repeated
insert-erase cycles reach capacity 1, and an insert at capacity 1
immediately regrows to 2. -/
theorem claim_C10 {K V : Type} [DecidableEq K] (hasher : K → Nat) (m : HashMap K V)
    (h : Reachable hasher m) : 1 ≤ m.pointers.length :=
  (reachable_inv hasher m h).2.2.1

/-- C10, witness: the bound at the fresh table, plus the concrete
capacity trajectory 16 → 8 → … → 1 → 2 described in the claim. -/
theorem claim_C10_witness :
    1 ≤ (hmDefault : HashMap Nat Nat).pointers.length ∧
    (hmErase idh (hmInsert idh (hmDefault : HashMap Nat Nat) (1, 1)) 1).pointers.length = 8 ∧
    cycleW.pointers.length = 1 ∧
    (hmInsert idh cycleW (1, 1)).pointers.length = 2 :=
  ⟨claim_C10 idh hmDefault Reachable.base, by decide, by decide, by decide⟩

end HashMapVerif
